import Mathlib

/-!
# Verification of the ingredient normalization and diet-classification pipeline

Shallow embedding of `src/web/src/diet_classifiers.py` and
`src/nb/src/diet_classifiers.py` (repository `search_by_ingredients`).

Conventions:
* Python strings are modelled as `String` / `List Char`.
* Regular-expression substitutions of the source are translated into
  executable character-list scanners that implement exactly the same
  leftmost, non-overlapping match semantics as the Python `re` module on
  the patterns that appear in the source.
* The spaCy part-of-speech tagger used by `_to_key_phrases` is an external
  model; it is passed as an explicit `tagger` parameter.  The loaded SVM
  fallback models are likewise passed as `Option (String → Bool)`.
-/

/-- Python `\s` / `str.strip` whitespace on the character sets that can
reach the scrubber (ASCII whitespace incl. the `\x1c`-`\x1f` separators,
plus the common Unicode space code points). -/
def isPySpace (c : Char) : Bool :=
  let v := c.toNat
  v = 32 || (9 ≤ v && v ≤ 13) || (28 ≤ v && v ≤ 31) || v = 133 || v = 160 ||
  v = 0x1680 || (0x2000 ≤ v && v ≤ 0x200a) || v = 0x2028 || v = 0x2029 ||
  v = 0x202f || v = 0x205f || v = 0x3000

/-- Python `\w` word characters; the unit/descriptor regexes are applied to
ASCII-folded text, where `\w` is alphanumeric-or-underscore
(`0-9A-Za-z_`, i.e. code points 48-57, 65-90, 97-122, 95). -/
def isWordChar (c : Char) : Bool :=
  let v := c.toNat
  (48 ≤ v && v ≤ 57) || (65 ≤ v && v ≤ 90) || (97 ≤ v && v ≤ 122) || v = 95

/-- The Unicode vulgar-fraction glyphs of the source's `FRACTIONS` string. -/
def isFracChar (c : Char) : Bool :=
  let v := c.toNat
  v = 0xbc || v = 0xbd || v = 0xbe || (0x2153 ≤ v && v ≤ 0x2154) ||
  (0x215b ≤ v && v ≤ 0x215e)

/-- Membership in Python `string.punctuation` (the ASCII punctuation
ranges 33-47, 58-64, 91-96, 123-126). -/
def isPunctChar (c : Char) : Bool :=
  let v := c.toNat
  (33 ≤ v && v ≤ 47) || (58 ≤ v && v ≤ 64) || (91 ≤ v && v ≤ 96) ||
  (123 ≤ v && v ≤ 126)

/-- `PUNCT_TR` maps every punctuation character except the hyphen to a
space. -/
def isPunctNoHyphen (c : Char) : Bool :=
  isPunctChar c && !(c = '-')

/-- Python set / list membership test on strings (`t in VOCAB`). -/
def memStr (w : String) (vocab : List String) : Bool :=
  vocab.any (fun e => decide (e = w))

/-- Python `str.split()` with no separator: split on whitespace runs,
dropping empty pieces.  `buf` is the current in-progress word. -/
def pyWordsGo (buf : List Char) : List Char → List String
  | [] => if buf.isEmpty then [] else [String.mk buf]
  | c :: cs =>
    if isPySpace c then
      if buf.isEmpty then pyWordsGo [] cs
      else String.mk buf :: pyWordsGo [] cs
    else pyWordsGo (buf ++ [c]) cs

/-- `norm.split()` of the source. -/
def pyWords (s : String) : List String :=
  pyWordsGo [] s.data

/-- `VEGAN_BLOCK` (identical in both source files). -/
def VEGAN_BLOCK : List String :=
  ["egg", "cheese", "butter", "cream", "yogurt", "honey",
   "anchovy", "chicken", "beef", "shrimp", "sausage"]

/-- `PLANT_BASES` (identical in both source files). -/
def PLANT_BASES : List String :=
  ["almond", "cashew", "soy", "oat", "rice", "coconut",
   "hemp", "macadamia", "peanut", "walnut", "hazelnut"]

/-- `KETO_BLOCK` (identical in both source files). -/
def KETO_BLOCK : List String :=
  ["sugar", "flour", "rice", "pasta", "bread", "potato", "corn",
   "oats", "lentils", "banana", "apple", "orange", "carrot", "honey",
   "jam", "cereal", "cooking spray"]

/-- `KETO_ALLOW` of the web variant. -/
def KETO_ALLOW : List String :=
  ["avocado", "bacon", "olive oil", "egg", "butter", "cream", "cheese",
   "almond", "coconut", "stevia", "erythritol", "mushroom", "pesto",
   "cilantro", "shallot", "asparagus", "artichoke", "bay leaf", "sherry",
   "lemon", "ginger", "green bean", "spinach", "vinegar", "olive",
   "walnut", "caper", "lime juice", "salmon fillet", "flank steak",
   "anchovy fillet", "vodka", "liqueur", "ice", "yogurt", "bean"]

/-- `KETO_ALLOW` of the nb variant (differs from the web variant: it has
"ginger root", "pepper sauce" and "sweetener" and lacks plain "ginger"). -/
def NB_KETO_ALLOW : List String :=
  ["avocado", "bacon", "olive oil", "egg", "butter", "cream",
   "cheese", "almond", "coconut", "stevia", "erythritol",
   "mushroom", "pesto", "cilantro", "shallot", "asparagus",
   "artichoke", "bay leaf", "sherry", "ginger root",
   "green bean", "spinach", "vinegar", "olive", "walnut", "caper",
   "lime juice", "salmon fillet", "flank steak", "anchovy fillet",
   "vodka", "liqueur", "ice", "pepper sauce", "sweetener", "yogurt", "bean"]

/-- Decision core of web `is_ingredient_keto`, as a function of the
preprocessed phrase `norm` (lines 106-125): BLOCK tokens, then ALLOW
tokens, then the SVM if loaded, else `False`. -/
def ketoDecision (model : Option (String → Bool)) (norm : String) : Bool :=
  let toks := pyWords norm
  if toks.any (fun t => memStr t KETO_BLOCK) then false
  else if toks.any (fun t => memStr t KETO_ALLOW) then true
  else match model with
       | some m => m norm
       | none => false

/-- Decision core of web `is_ingredient_vegan` (lines 127-145): plant-base
first token, then BLOCK tokens, then the SVM if loaded, else `False`. -/
def veganDecision (model : Option (String → Bool)) (norm : String) : Bool :=
  let toks := pyWords norm
  if (match toks with
      | [] => false
      | t0 :: _ => memStr t0 PLANT_BASES) then true
  else if toks.any (fun t => memStr t VEGAN_BLOCK) then false
  else match model with
       | some m => m norm
       | none => false

/-- Is `p` a contiguous sublist of the argument? -/
def hasSubstr (p : List Char) : List Char → Bool
  | [] => p.isEmpty
  | c :: cs => p.isPrefixOf (c :: cs) || hasSubstr p cs

/-- Python `tok in c` substring test on strings. -/
def strIn (tok c : String) : Bool :=
  hasSubstr tok.data c.data

/-- Per-phrase keto verdict computed by `_main` of the nb variant
(lines 153-168) when it builds `keto_map` for a cleaned phrase `c`:
it consults `KETO_ALLOW` (by substring) BEFORE `KETO_BLOCK`. -/
def nbKetoDecision (model : Option (String → Bool)) (c : String) : Bool :=
  if NB_KETO_ALLOW.any (fun tok => strIn tok c) then true
  else if KETO_BLOCK.any (fun tok => strIn tok c) then false
  else match model with
       | some m => m c
       | none => false

example : ketoDecision none ("sugar bacon") = false := by decide
example : nbKetoDecision none ("sugar butter") = true := by decide
example : veganDecision none ("almond butter") = true := by decide
example : pyWords ("almond  milk") = [("almond"), ("milk")] := by decide

/-! ## The text normalizer `_fast_scrub` (identical in both source files) -/

/-- Unit vocabulary: the expansion of the web `UNITS_RE` alternation, which
denotes the same 36 words as the nb `UNITS_LIST`; the list is kept in the
nb order because `LEADING_QTY` tries alternatives left to right. -/
def UNITS_S : List String :=
  ["cup", "cups", "tbsp", "tablespoon", "tablespoons", "tbs", "tsp",
   "teaspoon", "teaspoons", "pound", "pounds", "lb", "lbs", "ounce",
   "ounces", "oz", "gram", "grams", "kg", "kilogram", "kilograms", "ml",
   "l", "liter", "liters", "pint", "pints", "pt", "quart", "quarts", "qt",
   "gal", "gallon", "gallons", "inch", "inches"]

/-- `UNITS_S` as character lists. -/
def UNITS_L : List (List Char) := UNITS_S.map String.data

/-- Descriptor vocabulary of `REMOVE_RE` (identical in both files). -/
def REMOVE_S : List String :=
  ["fresh", "large", "medium", "small", "whole", "boneless", "skinless",
   "washed", "peeled", "pitted", "chopped", "diced", "sliced", "shredded",
   "grated", "minced", "crushed", "trimmed", "cleaned", "piece", "pieces",
   "slice", "slices", "pinch", "dash", "taste", "optional", "bite",
   "head", "bay", "leaf"]

/-- `REMOVE_S` as character lists. -/
def REMOVE_L : List (List Char) := REMOVE_S.map String.data

/-- Membership of a character-list word in a vocabulary. -/
def memWord (buf : List Char) (v : List (List Char)) : Bool :=
  v.any (fun e => decide (e = buf))

/-- Case-insensitive test that the content of a parenthetical mentions
"inch" (`re.I` substring). -/
def mentionsInch (buf : List Char) : Bool :=
  hasSubstr ['i', 'n', 'c', 'h'] (buf.map Char.toLower)

/-- Scanner for `re.sub(r"\([^)]*inch[^)]*\)", " ", raw, flags=re.I)`.
`st = none`: outside a candidate parenthetical; `st = some buf`: we saw a
`(` and have buffered `buf` up to (excluding) the next `)`.  A candidate
matches exactly when the buffered content up to the first `)` mentions
"inch"; a non-matching or unclosed candidate is emitted verbatim, and no
match can start inside it and end at or before the same `)` because the
body class `[^)]*` cannot cross a `)`. -/
def inchGo (st : Option (List Char)) : List Char → List Char
  | [] => match st with
          | none => []
          | some buf => '(' :: buf
  | c :: cs => match st with
    | none =>
      if c = '(' then inchGo (some []) cs
      else c :: inchGo none cs
    | some buf =>
      if c = ')' then
        if mentionsInch buf then ' ' :: inchGo none cs
        else '(' :: buf ++ ')' :: inchGo none cs
      else inchGo (some (buf ++ [c])) cs

/-- Step 1 of `_fast_scrub`: drop "(…inch…)" parentheticals. -/
def removeInchParens (s : List Char) : List Char := inchGo none s

/-- One character of step 2
(`unicodedata.normalize("NFKD", t).encode("ascii","ignore").decode().lower()`):
ASCII characters are kept and lowercased; the vulgar-fraction glyphs of
`FRACTIONS` decompose under NFKD to digit-fraction-slash-digit, of which
the ASCII encode keeps the two digits.  Other non-ASCII characters are
modelled as dropped (the behaviour of `encode("ascii","ignore")` on
characters whose NFKD form has no ASCII part); no claim below depends on
the NFKD image of any other non-ASCII character. -/
def charFold (c : Char) : List Char :=
  if c.toNat ≤ 127 then [c.toLower]
  else if c.toNat = 0xbc then ['1', '4']
  else if c.toNat = 0xbd then ['1', '2']
  else if c.toNat = 0xbe then ['3', '4']
  else if c.toNat = 0x2153 then ['1', '3']
  else if c.toNat = 0x2154 then ['2', '3']
  else if c.toNat = 0x215b then ['1', '8']
  else if c.toNat = 0x215c then ['3', '8']
  else if c.toNat = 0x215d then ['5', '8']
  else if c.toNat = 0x215e then ['7', '8']
  else []

/-- Step 2 of `_fast_scrub` on a whole string. -/
def asciiFold (s : List Char) : List Char :=
  (s.map charFold).flatten

/-- Emit a completed `\w`-run: a run equal to a vocabulary word is replaced
by a single space (the `re.sub(..., " ", ...)` replacement), any other run
is kept.  Because every vocabulary word consists of word characters only
and is matched with `\b` on both sides, a match of `UNITS_RE`/`REMOVE_RE`
is exactly a maximal `\w`-run equal to a vocabulary word. -/
def flushBuf (v : List (List Char)) (buf : List Char) : List Char :=
  if buf.isEmpty then [] else if memWord buf v then [' '] else buf

/-- Whole-word vocabulary removal (`UNITS_RE.sub(" ", ·)` and
`REMOVE_RE.sub(" ", ·)`, applied to already-lowercased text).  `buf` is
the current maximal word run. -/
def subWordsGo (v : List (List Char)) (buf : List Char) : List Char → List Char
  | [] => flushBuf v buf
  | c :: cs =>
    if isWordChar c then subWordsGo v (buf ++ [c]) cs
    else flushBuf v buf ++ c :: subWordsGo v [] cs

/-- Whole-word vocabulary removal on a string. -/
def subWords (v : List (List Char)) (s : List Char) : List Char :=
  subWordsGo v [] s

/-- Does some maximal `\w`-run of the text (continuing the open run `buf`)
equal a vocabulary word? -/
def hasVocabGo (v : List (List Char)) (buf : List Char) : List Char → Bool
  | [] => !buf.isEmpty && memWord buf v
  | c :: cs =>
    if isWordChar c then hasVocabGo v (buf ++ [c]) cs
    else (!buf.isEmpty && memWord buf v) || hasVocabGo v [] cs

/-- Does some maximal `\w`-run of the text equal a vocabulary word
(i.e. would `UNITS_RE`/`REMOVE_RE` fire)? -/
def hasVocabWord (v : List (List Char)) (s : List Char) : Bool :=
  hasVocabGo v [] s

/-- Scanner state for `re.sub(NUM, " ", ·)` with
`NUM = \d+(?:[./]\d+)?|[¼½¾⅓⅔⅛⅜⅝⅞]`. -/
inductive NumSt where
  | norm : NumSt
  | dig : NumSt
  | pend : Char → NumSt
  | fracd : NumSt
deriving DecidableEq

/-- One-pass scanner for `re.sub(NUM, " ", ·)`: `norm` = outside a match;
`dig` = inside the leading `\d+` (the replacement space has already been
emitted); `pend sep` = saw `.`/`/` right after digits and must look at the
next character to decide whether it belongs to the match; `fracd` = inside
the `\d+` after the separator. -/
def rmNumGo : NumSt → List Char → List Char
  | .norm, [] => []
  | .dig, [] => []
  | .pend sep, [] => [sep]
  | .fracd, [] => []
  | .norm, c :: cs =>
    if c.isDigit then ' ' :: rmNumGo .dig cs
    else if isFracChar c then ' ' :: rmNumGo .norm cs
    else c :: rmNumGo .norm cs
  | .dig, c :: cs =>
    if c.isDigit then rmNumGo .dig cs
    else if c = '.' || c = '/' then rmNumGo (.pend c) cs
    else if isFracChar c then ' ' :: rmNumGo .norm cs
    else c :: rmNumGo .norm cs
  | .pend sep, c :: cs =>
    if c.isDigit then rmNumGo .fracd cs
    else if isFracChar c then sep :: ' ' :: rmNumGo .norm cs
    else sep :: c :: rmNumGo .norm cs
  | .fracd, c :: cs =>
    if c.isDigit then rmNumGo .fracd cs
    else if isFracChar c then ' ' :: rmNumGo .norm cs
    else c :: rmNumGo .norm cs

/-- Step 4 of `_fast_scrub`: quantity removal. -/
def rmNum (s : List Char) : List Char := rmNumGo .norm s

/-- Step 5 of `_fast_scrub`: `t.translate(PUNCT_TR)`. -/
def rmPunct (s : List Char) : List Char :=
  s.map (fun c => if isPunctNoHyphen c then ' ' else c)

/-- Scanner for `re.sub(r"\s+", " ", ·)`; `inRun` records whether the
previous character was part of a whitespace run already replaced. -/
def collapseGo (inRun : Bool) : List Char → List Char
  | [] => []
  | c :: cs =>
    if isPySpace c then
      if inRun then collapseGo true cs
      else ' ' :: collapseGo true cs
    else c :: collapseGo false cs

/-- Remove a trailing whitespace run (the right half of `str.strip()`). -/
def rstripSp : List Char → List Char
  | [] => []
  | c :: cs =>
    let r := rstripSp cs
    if r.isEmpty && isPySpace c then [] else c :: r

/-- Python `str.strip()`. -/
def pyStripL (s : List Char) : List Char :=
  rstripSp (s.dropWhile isPySpace)

/-- Python `str.strip()` on `String`. -/
def pyStripStr (s : String) : String :=
  String.mk (pyStripL s.data)

/-- Step 7 of `_fast_scrub`: `re.sub(r"\s+", " ", t).strip()`. -/
def collapseStrip (s : List Char) : List Char :=
  pyStripL (collapseGo false s)

/-- `_fast_scrub` (web lines 77-85 = nb lines 59-66) on character lists. -/
def fast_scrubL (s : List Char) : List Char :=
  collapseStrip (subWords REMOVE_L (rmPunct (rmNum
    (subWords UNITS_L (asciiFold (removeInchParens s))))))

/-- `_fast_scrub` on `String`. -/
def fast_scrub (s : String) : String :=
  String.mk (fast_scrubL s.data)

example : fast_scrub ("8cup") = ("cup") := by decide
example : fast_scrub ("cup") = ("") := by decide
example : fast_scrub ("½ cup sugar") = ("sugar") := by decide
example : fast_scrub ("2 cups chopped walnuts") = ("walnuts") := by decide
example : fast_scrub ("1 (3-inch) piece fresh ginger") = ("ginger") := by decide
example : fast_scrub ("2") = ("") := by decide
example : fast_scrub ("cup_s") = ("cup s") := by decide
example : fast_scrub ("cup s") = ("s") := by decide
example : fast_scrub ("1.2.3") = ("") := by decide
example : fast_scrub ("1/2/3") = ("") := by decide
example : fast_scrub ("1..2") = ("") := by decide
example : fast_scrub ("1/2.5") = ("") := by decide
example : fast_scrub ("12 eggs") = ("eggs") := by decide
example : fast_scrub ("2lbs steak") = ("lbs steak") := by decide
example : fast_scrub ("(x)(3 inch)") = ("x") := by decide
example : fast_scrub ("(a (b inch)") = ("") := by decide
example : fast_scrub ("(no close inch") = ("no close") := by decide
example : fast_scrub ("8fresh") = ("") := by decide
example : fast_scrub ("a½b") = ("a b") := by decide
example : fast_scrub ("OLIVE OIL!!") = ("olive oil") := by decide
example : fast_scrub ("1,000 grams") = ("") := by decide
example : fast_scrub ("x-y_z") = ("x-y z") := by decide
example : fast_scrub ("  spaced  out  ") = ("spaced out") := by decide
example : fast_scrub ("3 cupsofx") = ("cupsofx") := by decide
example : fast_scrub ("1.5 l milk") = ("milk") := by decide
example : fast_scrub ("teaspoonful") = ("teaspoonful") := by decide
example : fast_scrub ("2 pounds beef") = ("beef") := by decide

/-! ## The phrase extractor `_to_key_phrases` and `preprocess`

`_to_key_phrases` runs the spaCy tagger over its input; the tagger is an
external statistical model, so it enters the embedding as an explicit
function from the scrubbed text to the token stream.  A `PTok` carries
what the loop reads off a spaCy token: its lemma and whether its
part-of-speech tag is in `KEEP_POS = {"NOUN", "PROPN"}`. -/

structure PTok where
  lem : String
  noun : Bool

/-- Python `str.lower()` (ASCII part; the lemmas that occur in the claims
below are ASCII). -/
def strLower (s : String) : String :=
  String.mk (s.data.map Char.toLower)

/-- The token loop of `_to_key_phrases` (web lines 88-97): accumulate
consecutive noun tokens in `buff`; on a non-noun token or end of input,
emit `" ".join(buff)` when `0 < len(buff) <= 3`. -/
def toKeyGo (buff out : List String) : List PTok → List String
  | [] =>
    if 0 < buff.length ∧ buff.length ≤ 3 then
      out ++ [String.intercalate (" ") buff]
    else out
  | t :: ts =>
    if t.noun then toKeyGo (buff ++ [strLower t.lem]) out ts
    else if 0 < buff.length ∧ buff.length ≤ 3 then
      toKeyGo [] (out ++ [String.intercalate (" ") buff]) ts
    else toKeyGo [] out ts

/-- `_to_key_phrases(text)` with the spaCy output `toks` made explicit:
`" ".join(out) if out else text` — the fallback is the function's own
input `text`, i.e. the scrubbed string. -/
def to_key_phrases (toks : List PTok) (text : String) : String :=
  let out := toKeyGo [] [] toks
  if out.isEmpty then text else String.intercalate (" ") out

/-- `preprocess(raw)` = `_to_key_phrases(_fast_scrub(raw))`, with the
tagger explicit: the tagger is applied to the scrubbed text, and the
fallback text inside `_to_key_phrases` is that same scrubbed text. -/
def preprocess (tagger : String → List PTok) (raw : String) : String :=
  to_key_phrases (tagger (fast_scrub raw)) (fast_scrub raw)

/-- Web `is_ingredient_keto` as a whole pipeline. -/
def is_ingredient_keto (tagger : String → List PTok)
    (model : Option (String → Bool)) (raw : String) : Bool :=
  ketoDecision model (preprocess tagger raw)

/-- Web `is_ingredient_vegan` as a whole pipeline. -/
def is_ingredient_vegan (tagger : String → List PTok)
    (model : Option (String → Bool)) (raw : String) : Bool :=
  veganDecision model (preprocess tagger raw)

/-- Web `is_keto(ings) = all(is_ingredient_keto(i) for i in ings)`. -/
def is_keto (tagger : String → List PTok) (model : Option (String → Bool))
    (ings : List String) : Bool :=
  ings.all (is_ingredient_keto tagger model)

/-- Web `is_vegan(ings) = all(is_ingredient_vegan(i) for i in ings)`. -/
def is_vegan (tagger : String → List PTok) (model : Option (String → Bool))
    (ings : List String) : Bool :=
  ings.all (is_ingredient_vegan tagger model)

/-! ## The nb cell parser `to_list`

`SPLIT_QTY = (?<!^)(?=NUM)` inserts a newline before every digit or
vulgar-fraction character except at position 0.

`LEADING_QTY` interpolates `NUM` without grouping, so the pattern is the
TOP-LEVEL alternation
`^\s*\d+(?:[./]\d+)?  |  [¼½¾⅓⅔⅛⅜⅝⅞]\s*(?:unit-alternation)?\s*`
and `re.sub` applies it globally: the digit branch is anchored and strips
no unit; the fraction branch is unanchored, fires anywhere in the string,
and strips the FIRST unit alternative that matches as a prefix (so "cup"
shadows "cups").  This was confirmed against CPython `re` behaviour. -/

/-- A char before which `SPLIT_QTY`'s lookahead succeeds. -/
def isNumStart (c : Char) : Bool :=
  c.isDigit || isFracChar c

/-- Insert a newline before every `NUM`-start character (positions ≥ 1). -/
def splitQtyGo : List Char → List Char
  | [] => []
  | c :: cs =>
    if isNumStart c then '\n' :: c :: splitQtyGo cs
    else c :: splitQtyGo cs

/-- `SPLIT_QTY.sub("\n", txt)`: position 0 is exempted by `(?<!^)`. -/
def splitQtyMark : List Char → List Char
  | [] => []
  | c :: cs => c :: splitQtyGo cs

/-- A delimiter of `re.split(r"[\n,]+", ·)`. -/
def isDelimChar (c : Char) : Bool :=
  c = '\n' || c = ','

/-- `re.split(r"[\n,]+", ·)`: pieces between maximal delimiter runs
(empty pieces arise only at the ends). -/
def splitDelimsGo (inRun : Bool) (buf : List Char) : List Char → List (List Char)
  | [] => [buf]
  | c :: cs =>
    if isDelimChar c then
      if inRun then splitDelimsGo true [] cs
      else buf :: splitDelimsGo true [] cs
    else splitDelimsGo false (buf ++ [c]) cs

/-- Length of the first unit alternative (in `UNITS_LIST` order) matching
case-insensitively as a prefix of `l`. -/
def findUnitLen (l : List Char) : Option Nat :=
  match UNITS_S.find?
      (fun u => decide ((l.take u.data.length).map Char.toLower = u.data)) with
  | some u => some u.data.length
  | none => none

/-- Scanner state for the unanchored fraction branch of `LEADING_QTY`:
`scan` = outside a match; `ws1` = in the `\s*` after a fraction glyph;
`skip n` = consuming the remaining `n` characters of a matched unit word;
`ws2` = in the final `\s*`. -/
inductive LqSt where
  | scan : LqSt
  | ws1 : LqSt
  | skip : Nat → LqSt
  | ws2 : LqSt
deriving DecidableEq

/-- Global scan for `[¼½¾⅓⅔⅛⅜⅝⅞]\s*(?:unit)?\s*`. -/
def lqGo : LqSt → List Char → List Char
  | _, [] => []
  | .scan, c :: cs =>
    if isFracChar c then lqGo .ws1 cs
    else c :: lqGo .scan cs
  | .ws1, c :: cs =>
    if isPySpace c then lqGo .ws1 cs
    else match findUnitLen (c :: cs) with
         | some n => if n ≤ 1 then lqGo .ws2 cs else lqGo (.skip (n - 1)) cs
         | none =>
           if isFracChar c then lqGo .ws1 cs
           else c :: lqGo .scan cs
  | .skip n, _ :: cs =>
    if n ≤ 1 then lqGo .ws2 cs else lqGo (.skip (n - 1)) cs
  | .ws2, c :: cs =>
    if isPySpace c then lqGo .ws2 cs
    else if isFracChar c then lqGo .ws1 cs
    else c :: lqGo .scan cs

/-- Remainder after the anchored digit branch `^\s*\d+(?:[./]\d+)?`
(call only when the input after leading spaces starts with a digit). -/
def digitsRest (t : List Char) : List Char :=
  let r := t.dropWhile Char.isDigit
  match r with
  | d :: ds =>
    if (d = '.' || d = '/') &&
       (match ds with | e :: _ => e.isDigit | [] => false)
    then ds.dropWhile Char.isDigit
    else r
  | [] => []

/-- `LEADING_QTY.sub("", p)`. -/
def lqSub (s : List Char) : List Char :=
  let t := s.dropWhile isPySpace
  match t with
  | c :: _ => if c.isDigit then lqGo .scan (digitsRest t) else lqGo .scan s
  | [] => lqGo .scan s

/-- The fallback splitting heuristic of `to_list` (nb lines 101-104). -/
def heurSplit (txt : List Char) : List String :=
  let pieces := splitQtyMark txt
  let parts := (splitDelimsGo false [] pieces).map (fun p => pyStripL (lqSub p))
  (parts.filter (fun p => !p.isEmpty)).map String.mk

/-- `SINGLE_QUOTED.findall`: non-overlapping matches of `'([^']+)'`.
`cur = some buf` means an opening quote was seen and `buf` is the content
so far; an immediately following quote (empty content) makes the engine
retry with that quote as the opener. -/
def fsqGo (cur : Option (List Char)) : List Char → List (List Char)
  | [] => []
  | c :: cs => match cur with
    | none =>
      if c = '\'' then fsqGo (some []) cs else fsqGo none cs
    | some buf =>
      if c = '\'' then
        if buf.isEmpty then fsqGo (some []) cs
        else buf :: fsqGo none cs
      else fsqGo (some (buf ++ [c])) cs

/-- `txt.startswith("[") and txt.endswith("]")`. -/
def bracketed (t : List Char) : Bool :=
  (match t with | c :: _ => c = '[' | [] => false) &&
  (match t.getLast? with | some c => c = ']' | none => false)

/-- The dynamically-typed cell value handed to `to_list`: a structured
list of strings, a string, or anything else (`isinstance` checks). -/
inductive Cell where
  | ofList : List String → Cell
  | ofStr : String → Cell
  | other : Cell

/-- nb `to_list` (lines 86-104).  `ev` models the
`[str(x).strip() for x in ast.literal_eval(txt)]` branch: `ev txt = some l`
when `ast.literal_eval` succeeds on `txt` and yields an iterable whose
items have `str()` forms `l` (the code then strips each); `none` covers
any exception, which the bare `except` turns into fall-through. -/
def to_list (ev : String → Option (List String)) : Cell → List String
  | .ofList l => l
  | .other => []
  | .ofStr cell =>
    let txt := pyStripL cell.data
    if bracketed txt then
      let hits := fsqGo none txt
      if !hits.isEmpty then hits.map (fun h => pyStripStr (String.mk h))
      else if txt.any (fun c => c = ',') then
        match ev (String.mk txt) with
        | some l => l.map pyStripStr
        | none => heurSplit txt
      else heurSplit txt
    else heurSplit txt

example : to_list (fun _ => none) (.ofStr ("['egg', 'flour']")) =
    [("egg"), ("flour")] := by decide
example : to_list (fun _ => none) (.ofStr ("2 eggs, 1 cup flour")) =
    [("eggs"), ("cup flour")] := by decide
example : to_list (fun _ => none) (.ofStr ("12 eggs, 3 cups flour")) =
    [("eggs"), ("cups flour")] := by decide
example : to_list (fun _ => none) (.ofStr ("[' ']")) = [("")] := by decide
example : to_list (fun _ => none) (.ofStr ("['a','b']")) = [("a"), ("b")] := by decide
example : to_list (fun _ => none) (.ofStr ("[]")) = [("[]")] := by decide
example : to_list (fun _ => none) (.ofStr ("")) = [] := by decide
example : to_list (fun _ => none) (.ofStr ("  ")) = [] := by decide
example : to_list (fun _ => none) (.ofStr ("2 eggs 1 cup flour")) =
    [("eggs"), ("cup flour")] := by decide
example : to_list (fun _ => none) (.ofStr ("½ cup milk, 1 tsp salt")) =
    [("milk"), ("tsp salt")] := by decide
example : to_list (fun _ => none) (.ofStr ("banana")) = [("banana")] := by decide
example : to_list (fun t => if t = ("[1, 2]") then some [("1"), ("2")] else none)
    (.ofStr ("[1, 2]")) = [("1"), ("2")] := by decide
example : to_list (fun _ => none) (.ofStr ("['don''t']")) = [("don"), ("t")] := by decide
example : to_list (fun _ => none) (.ofStr ("a,,b")) = [("a"), ("b")] := by decide
example : to_list (fun _ => none) (.ofStr (",a,")) = [("a")] := by decide
example : to_list (fun _ => none) (.ofStr ("½ cups x")) = [("s x")] := by decide
example : to_list (fun _ => none) (.ofStr ("x ¼ cup y, 2 eggs")) =
    [("x"), ("y"), ("eggs")] := by decide
example : to_list (fun _ => none) (.ofList [("")]) = [("")] := by decide
example : to_list (fun _ => none) .other = [] := by decide

/-! ## C10: multi-word vocabulary entries are inert in the web keto path -/

/-- An entry with no whitespace character (a single-token entry). -/
def noSpaceEntry (e : String) : Bool :=
  e.data.all (fun c => !isPySpace c)

/-- `KETO_BLOCK` with every whitespace-containing entry removed. -/
def KETO_BLOCK_TOK : List String := KETO_BLOCK.filter noSpaceEntry

/-- `KETO_ALLOW` with every whitespace-containing entry removed. -/
def KETO_ALLOW_TOK : List String := KETO_ALLOW.filter noSpaceEntry

/-- The claim's comparison function: web `is_ingredient_keto`'s decision
core run with the whitespace-containing vocabulary entries removed. -/
def ketoDecisionTok (model : Option (String → Bool)) (norm : String) : Bool :=
  let toks := pyWords norm
  if toks.any (fun t => memStr t KETO_BLOCK_TOK) then false
  else if toks.any (fun t => memStr t KETO_ALLOW_TOK) then true
  else match model with
       | some m => m norm
       | none => false

/-- Words produced by `str.split()` contain no whitespace character. -/
theorem pyWordsGo_noSpace (p : String) :
    ∀ (s buf : List Char), buf.all (fun c => !isPySpace c) = true →
      p ∈ pyWordsGo buf s → p.data.all (fun c => !isPySpace c) = true := by
  intro s
  induction s with
  | nil =>
    intro buf hbuf hp
    simp only [pyWordsGo] at hp
    by_cases hb : buf.isEmpty
    · simp [hb] at hp
    · simp [hb] at hp
      subst hp
      exact hbuf
  | cons c cs ih =>
    intro buf hbuf hp
    simp only [pyWordsGo] at hp
    by_cases hc : isPySpace c
    · simp only [hc, if_true] at hp
      by_cases hb : buf.isEmpty
      · simp only [hb, if_true] at hp
        exact ih [] rfl hp
      · simp only [hb, if_false] at hp
        rcases List.mem_cons.mp hp with h | h
        · subst h
          exact hbuf
        · exact ih [] rfl h
    · simp only [hc, if_false] at hp
      refine ih (buf ++ [c]) ?_ hp
      simp [List.all_append, hbuf, hc]

/-- Filtering a vocabulary by a predicate the word satisfies does not
change membership. -/
theorem memStr_filter (q : String → Bool) (w : String) (hw : q w = true) :
    ∀ S : List String, memStr w (S.filter q) = memStr w S := by
  intro S
  induction S with
  | nil => rfl
  | cons e S ih =>
    by_cases he : q e
    · simp only [List.filter_cons, he, if_true]
      simp only [memStr, List.any_cons] at *
      rw [ih]
    · simp only [List.filter_cons, he]
      simp only [Bool.false_eq_true, if_false]
      simp only [memStr, List.any_cons] at *
      rw [ih]
      have : (decide (e = w)) = false := by
        by_cases h : e = w
        · subst h
          rw [hw] at he
          exact absurd rfl he
        · simp [h]
      simp [this]

/-- Pointwise-equal predicates give equal `any`. -/
theorem any_congr_mem {α : Type} (l : List α) (f g : α → Bool)
    (h : ∀ x ∈ l, f x = g x) : l.any f = l.any g := by
  induction l with
  | nil => rfl
  | cons a l ih =>
    simp only [List.any_cons]
    rw [h a (List.mem_cons_self a l), ih (fun x hx => h x (List.mem_cons_of_mem a hx))]

/-- C10: the web keto classifier splits the phrase on whitespace and tests
single tokens for set membership, so removing every whitespace-containing
entry ("olive oil", "bay leaf", "lime juice", "cooking spray", …) from
`KETO_BLOCK`/`KETO_ALLOW` never changes any verdict: multi-word entries
can never decide a verdict. -/
theorem C10_multiword_entries_inert
    (model : Option (String → Bool)) (norm : String) :
    ketoDecision model norm = ketoDecisionTok model norm := by
  have htok : ∀ t ∈ pyWords norm, noSpaceEntry t = true := by
    intro t ht
    exact pyWordsGo_noSpace t norm.data [] rfl ht
  have hb : (pyWords norm).any (fun t => memStr t KETO_BLOCK) =
      (pyWords norm).any (fun t => memStr t KETO_BLOCK_TOK) := by
    refine any_congr_mem _ _ _ (fun t ht => ?_)
    rw [KETO_BLOCK_TOK, memStr_filter noSpaceEntry t (htok t ht)]
  have ha : (pyWords norm).any (fun t => memStr t KETO_ALLOW) =
      (pyWords norm).any (fun t => memStr t KETO_ALLOW_TOK) := by
    refine any_congr_mem _ _ _ (fun t ht => ?_)
    rw [KETO_ALLOW_TOK, memStr_filter noSpaceEntry t (htok t ht)]
  simp only [ketoDecision, ketoDecisionTok]
  rw [hb, ha]

/-! ## C1: block-before-allow precedence for keto -/

/-- C1 counterexample: the nb `_main` keto-map construction consults the
ALLOW vocabulary (by substring) BEFORE the BLOCK vocabulary, so the
cleaned phrase "sugar butter" — which contains the BLOCK term "sugar"
and the ALLOW term "butter" under both the token and the substring
reading — is classified keto-TRUE by the nb variant, refuting the claim
for the nb code it cites. -/
theorem C1_counterexample :
    nbKetoDecision none ("sugar butter") = true ∧
    ("sugar") ∈ pyWords ("sugar butter") ∧
    memStr ("sugar") KETO_BLOCK = true ∧
    strIn ("sugar") ("sugar butter") = true ∧
    ("butter") ∈ pyWords ("sugar butter") ∧
    memStr ("butter") NB_KETO_ALLOW = true ∧
    strIn ("butter") ("sugar butter") = true := by
  decide

/-- C1 (amended): in the WEB variant, for every preprocessed phrase whose
whitespace tokens include both a `KETO_BLOCK` and a `KETO_ALLOW` entry,
`is_ingredient_keto`'s decision is false, whatever fallback model is
loaded: the block vocabulary is consulted first there. -/
theorem C1_block_precedence_web
    (model : Option (String → Bool)) (norm : String)
    (hb : (pyWords norm).any (fun t => memStr t KETO_BLOCK) = true)
    (_ha : (pyWords norm).any (fun t => memStr t KETO_ALLOW) = true) :
    ketoDecision model norm = false := by
  simp only [ketoDecision, hb, if_true]

/-- Witness for `C1_block_precedence_web` at the phrase "sugar bacon". -/
theorem C1_block_precedence_web_witness :
    ketoDecision none ("sugar bacon") = false :=
  C1_block_precedence_web none ("sugar bacon") (by decide) (by decide)

/-! ## C2: plant-prefix precedence for vegan -/

/-- C2: if the first whitespace token of the preprocessed phrase is in
`PLANT_BASES`, web `is_ingredient_vegan`'s decision is true, for every
fallback model and regardless of any `VEGAN_BLOCK` token elsewhere in the
phrase: the plant-prefix rule is checked before the block vocabulary. -/
theorem C2_plant_prefix_precedence
    (model : Option (String → Bool)) (norm : String)
    (t0 : String) (rest : List String)
    (htoks : pyWords norm = t0 :: rest)
    (hplant : memStr t0 PLANT_BASES = true) :
    veganDecision model norm = true := by
  simp only [veganDecision, htoks, hplant, if_true]

/-- Witness for `C2_plant_prefix_precedence` at the phrase
"almond butter", whose second token IS a `VEGAN_BLOCK` entry. -/
theorem C2_plant_prefix_precedence_witness :
    veganDecision none ("almond butter") = true ∧
    memStr ("butter") VEGAN_BLOCK = true :=
  ⟨C2_plant_prefix_precedence none ("almond butter") ("almond") [("butter")]
    (by decide) (by decide), by decide⟩

/-! ## C3: recipe-level aggregation -/

/-- C3: for both predicates, the recipe verdict is true exactly when every
ingredient of the list individually classifies true, and the empty
ingredient list yields true (vacuous truth). -/
theorem C3_recipe_aggregation (tagger : String → List PTok)
    (model : Option (String → Bool)) (ings : List String) :
    (is_keto tagger model ings = true ↔
      ∀ i ∈ ings, is_ingredient_keto tagger model i = true) ∧
    (is_vegan tagger model ings = true ↔
      ∀ i ∈ ings, is_ingredient_vegan tagger model i = true) ∧
    is_keto tagger model [] = true ∧
    is_vegan tagger model [] = true := by
  refine ⟨?_, ?_, rfl, rfl⟩
  · simp [is_keto, List.all_eq_true]
  · simp [is_vegan, List.all_eq_true]

/-! ## C4: the empty-scrub fallback -/

/-- C4 counterexample: `preprocess` of the non-empty raw string "2" is the
EMPTY string.  `_fast_scrub` scrubs "2" to "", `_to_key_phrases` receives
"" and falls back to its own input — the scrubbed text, not the raw
text — so nothing recovers "2".  The dummy tagger is evaluated only at
"", where spaCy's tokenizer genuinely yields no tokens. -/
theorem C4_counterexample :
    fast_scrub ("2") = ("") ∧
    preprocess (fun _ => []) ("2") = ("") ∧
    ("2") ≠ ("") := by
  refine ⟨by decide, by decide, by decide⟩

/-- C4 (amended): when no noun phrase is emitted, `_to_key_phrases` falls
back to its own input, the SCRUBBED text (not the pre-scrub raw text);
hence whenever scrubbing removes everything, `preprocess` returns the
empty string for any tagger that yields no tokens on empty input. -/
theorem C4_scrub_fallback (tagger : String → List PTok) (raw : String)
    (htag : tagger ("") = []) (hscrub : fast_scrub raw = ("")) :
    preprocess tagger raw = ("") := by
  simp only [preprocess, hscrub, htag]
  decide

/-- Witness for `C4_scrub_fallback` at raw input "½". -/
theorem C4_scrub_fallback_witness :
    preprocess (fun _ => []) ("½") = ("") :=
  C4_scrub_fallback (fun _ => []) ("½") rfl (by decide)

/-! ## C7: to_list round trips of the spec's examples -/

/-- C7 evaluation: the bracketed single-quoted field round-trips as the
spec says, but the plain comma field parses to `["eggs", "cup flour"]`:
the unit "cup" is NOT stripped.  `LEADING_QTY` interpolates `NUM`
unparenthesized, so its `|` splits the whole pattern and the optional
unit suffix belongs only to the vulgar-fraction alternative; the anchored
digit alternative strips bare digits only. -/
theorem C7_list_parser_eval (ev : String → Option (List String)) :
    to_list ev (.ofStr ("['egg', 'flour']")) = [("egg"), ("flour")] ∧
    to_list ev (.ofStr ("2 eggs, 1 cup flour")) = [("eggs"), ("cup flour")] ∧
    to_list ev (.ofStr ("½ cup flour")) = [("flour")] := by
  exact ⟨rfl, rfl, rfl⟩

/-! ## C9: degraded mode without a fallback model -/

/-- C9: with no model loaded (`model = none`), an ingredient phrase not
matched by the keto BLOCK/ALLOW vocabularies gets keto-false, and one not
matched by the vegan plant-prefix rule or BLOCK vocabulary gets
vegan-false; both decisions are total functions, so no exception arises. -/
theorem C9_degraded_mode (norm : String) :
    ((pyWords norm).any (fun t => memStr t KETO_BLOCK) = false →
     (pyWords norm).any (fun t => memStr t KETO_ALLOW) = false →
     ketoDecision none norm = false) ∧
    ((match pyWords norm with
      | [] => false
      | t0 :: _ => memStr t0 PLANT_BASES) = false →
     (pyWords norm).any (fun t => memStr t VEGAN_BLOCK) = false →
     veganDecision none norm = false) := by
  constructor
  · intro hb ha
    simp only [ketoDecision, hb, ha]
    rfl
  · intro hp hb
    simp only [veganDecision, hp, hb]
    rfl

/-- Witness for `C9_degraded_mode` at the phrase "tofu", which no
vocabulary matches. -/
theorem C9_degraded_mode_witness :
    ketoDecision none ("tofu") = false ∧ veganDecision none ("tofu") = false :=
  ⟨(C9_degraded_mode ("tofu")).1 (by decide) (by decide),
   (C9_degraded_mode ("tofu")).2 (by decide) (by decide)⟩

/-! ## Strip lemmas (shared by C8 and C5) -/

/-- `rstripSp` is idempotent. -/
theorem rstripSp_idem (l : List Char) : rstripSp (rstripSp l) = rstripSp l := by
  induction l with
  | nil => rfl
  | cons c cs ih =>
    by_cases h : ((rstripSp cs).isEmpty && isPySpace c) = true
    · simp [rstripSp, h]
    · simp only [Bool.not_eq_true] at h
      simp [rstripSp, h, ih]

/-- The head of `dropWhile isPySpace` is not a space. -/
theorem headNS_dropWhile (l : List Char) :
    ∀ c cs, l.dropWhile isPySpace = c :: cs → isPySpace c = false := by
  induction l with
  | nil => intro c cs h; simp at h
  | cons a l ih =>
    intro c cs h
    rw [List.dropWhile_cons] at h
    by_cases ha : isPySpace a = true
    · rw [if_pos ha] at h
      exact ih c cs h
    · rw [if_neg ha] at h
      cases h
      simpa using ha

/-- `rstripSp` preserves a non-space head. -/
theorem rstrip_headNS (l : List Char)
    (hl : ∀ c cs, l = c :: cs → isPySpace c = false) :
    ∀ c cs, rstripSp l = c :: cs → isPySpace c = false := by
  cases l with
  | nil => intro c cs h; simp [rstripSp] at h
  | cons a as =>
    intro c cs h
    simp only [rstripSp] at h
    by_cases hb : ((rstripSp as).isEmpty && isPySpace a) = true
    · rw [if_pos hb] at h; cases h
    · rw [if_neg hb] at h
      cases h
      exact hl a as rfl

/-- `dropWhile isPySpace` is the identity on a list with non-space head. -/
theorem dropWhile_of_headNS (l : List Char)
    (hl : ∀ c cs, l = c :: cs → isPySpace c = false) :
    l.dropWhile isPySpace = l := by
  cases l with
  | nil => rfl
  | cons a as =>
    rw [List.dropWhile_cons, if_neg]
    rw [hl a as rfl]
    simp

/-- Python `str.strip()` is idempotent. -/
theorem pyStripL_idem (s : List Char) : pyStripL (pyStripL s) = pyStripL s := by
  show rstripSp ((rstripSp (s.dropWhile isPySpace)).dropWhile isPySpace) = _
  rw [dropWhile_of_headNS _ (rstrip_headNS _ (headNS_dropWhile s)), rstripSp_idem]
  rfl

/-! ## C8: to_list error handling and element shape -/

/-- C8 counterexample: `to_list` can return empty elements.  The
structured-list branch returns the list unchanged, so an empty-string
element passes through; and the bracketed single-quote branch strips its
matches, so a quoted whitespace-only item comes back as the empty
string.  Both refute "no element of the returned sequence is empty or
whitespace-only". -/
theorem C8_counterexample :
    to_list (fun _ => none) (Cell.ofList [("")]) = [("")] ∧
    to_list (fun _ => none) (Cell.ofStr ("[' ']")) = [("")] := by
  exact ⟨rfl, by decide⟩

/-- Every piece produced by the fallback heuristic is non-empty and
already stripped (hence not whitespace-only). -/
theorem heurSplit_mem (txt : List Char) (p : String) (hp : p ∈ heurSplit txt) :
    p ≠ ("") ∧ pyStripStr p = p := by
  simp only [heurSplit, List.mem_map, List.mem_filter] at hp
  obtain ⟨l, ⟨hmem, hne⟩, rfl⟩ := hp
  constructor
  · intro h
    have hl : l = [] := by
      have := congrArg String.data h
      simpa using this
    rw [hl] at hne
    simp at hne
  · obtain ⟨q, _, rfl⟩ := hmem
    show pyStripStr (String.mk (pyStripL (lqSub q))) = _
    simp only [pyStripStr]
    rw [pyStripL_idem]

/-- C8 (amended): `to_list` is a total function returning a list of
strings (it models the Python code whose only fallible call sits under a
bare `except` that falls through, so no exception escapes); every piece
produced by the fallback quantity-splitting path — in particular for any
string input that is not a bracketed list — is non-empty and not
whitespace-only.  The structured-list branch and the bracketed
single-quote branch do NOT guarantee this (see the counterexample). -/
theorem C8_nonempty_pieces (ev : String → Option (List String)) (s : String)
    (hb : bracketed (pyStripL s.data) = false) :
    ∀ p ∈ to_list ev (.ofStr s), p ≠ ("") ∧ pyStripStr p = p := by
  intro p hp
  simp only [to_list, hb, Bool.false_eq_true, if_false] at hp
  exact heurSplit_mem _ p hp

/-- Witness for `C8_nonempty_pieces` on the plain comma field. -/
theorem C8_nonempty_pieces_witness :
    ("eggs") ≠ ("") ∧ pyStripStr ("eggs") = ("eggs") :=
  C8_nonempty_pieces (fun _ => none) ("2 eggs, 1 cup flour") (by decide)
    ("eggs") (by decide)

/-! ## Character-class preservation lemmas (shared by C6 and C5) -/

/-- `flushBuf` emits only buffer characters or a space. -/
theorem flushBuf_all (p : Char → Bool) (hsp : p ' ' = true)
    (v : List (List Char)) (buf : List Char) (hb : buf.all p = true) :
    (flushBuf v buf).all p = true := by
  simp only [flushBuf]
  by_cases h1 : buf.isEmpty = true
  · simp [h1]
  · simp only [h1]
    by_cases h2 : memWord buf v = true
    · simp [h2, hsp]
    · simp only [h2]
      simpa using hb

/-- `subWordsGo` emits only input characters or spaces. -/
theorem all_subWordsGo (p : Char → Bool) (hsp : p ' ' = true)
    (v : List (List Char)) :
    ∀ (s buf : List Char), buf.all p = true → s.all p = true →
      (subWordsGo v buf s).all p = true := by
  intro s
  induction s with
  | nil =>
    intro buf hb _
    exact flushBuf_all p hsp v buf hb
  | cons c cs ih =>
    intro buf hb hs
    simp only [List.all_cons, Bool.and_eq_true] at hs
    obtain ⟨hc, hcs⟩ := hs
    simp only [subWordsGo]
    by_cases hw : isWordChar c = true
    · rw [if_pos hw]
      exact ih (buf ++ [c]) (by simp [List.all_append, hb, hc]) hcs
    · rw [if_neg hw, List.all_append]
      simp only [Bool.and_eq_true]
      exact ⟨flushBuf_all p hsp v buf hb,
             by simp only [List.all_cons, Bool.and_eq_true]
                exact ⟨hc, ih [] rfl hcs⟩⟩

/-- Side condition on the `rmNumGo` state for character preservation. -/
def numStP (p : Char → Bool) : NumSt → Prop
  | .pend sep => p sep = true
  | _ => True

/-- `rmNumGo` emits only input characters, spaces, or the pending
separator. -/
theorem all_rmNumGo (p : Char → Bool) (hsp : p ' ' = true) :
    ∀ (s : List Char) (st : NumSt), numStP p st →
      s.all p = true → (rmNumGo st s).all p = true := by
  intro s
  induction s with
  | nil =>
    intro st hst _
    cases st with
    | pend sep => simpa [rmNumGo] using hst
    | norm => rfl
    | dig => rfl
    | fracd => rfl
  | cons c cs ih =>
    intro st hst hs
    simp only [List.all_cons, Bool.and_eq_true] at hs
    obtain ⟨hc, hcs⟩ := hs
    cases st with
    | norm =>
      simp only [rmNumGo]
      by_cases h1 : c.isDigit = true
      · simp only [if_pos h1, List.all_cons, Bool.and_eq_true]
        exact ⟨hsp, ih .dig trivial hcs⟩
      · rw [if_neg h1]
        by_cases h2 : isFracChar c = true
        · simp only [if_pos h2, List.all_cons, Bool.and_eq_true]
          exact ⟨hsp, ih .norm trivial hcs⟩
        · simp only [if_neg h2, List.all_cons, Bool.and_eq_true]
          exact ⟨hc, ih .norm trivial hcs⟩
    | dig =>
      simp only [rmNumGo]
      by_cases h1 : c.isDigit = true
      · rw [if_pos h1]
        exact ih .dig trivial hcs
      · rw [if_neg h1]
        by_cases h2 : (c = '.' || c = '/') = true
        · rw [if_pos h2]
          exact ih (.pend c) hc hcs
        · rw [if_neg h2]
          by_cases h3 : isFracChar c = true
          · simp only [if_pos h3, List.all_cons, Bool.and_eq_true]
            exact ⟨hsp, ih .norm trivial hcs⟩
          · simp only [if_neg h3, List.all_cons, Bool.and_eq_true]
            exact ⟨hc, ih .norm trivial hcs⟩
    | pend sep =>
      simp only [rmNumGo]
      by_cases h1 : c.isDigit = true
      · rw [if_pos h1]
        exact ih .fracd trivial hcs
      · rw [if_neg h1]
        by_cases h2 : isFracChar c = true
        · simp only [if_pos h2, List.all_cons, Bool.and_eq_true]
          exact ⟨hst, hsp, ih .norm trivial hcs⟩
        · simp only [if_neg h2, List.all_cons, Bool.and_eq_true]
          exact ⟨hst, hc, ih .norm trivial hcs⟩
    | fracd =>
      simp only [rmNumGo]
      by_cases h1 : c.isDigit = true
      · rw [if_pos h1]
        exact ih .fracd trivial hcs
      · rw [if_neg h1]
        by_cases h2 : isFracChar c = true
        · simp only [if_pos h2, List.all_cons, Bool.and_eq_true]
          exact ⟨hsp, ih .norm trivial hcs⟩
        · simp only [if_neg h2, List.all_cons, Bool.and_eq_true]
          exact ⟨hc, ih .norm trivial hcs⟩

/-- Side condition for the no-digit output lemma. -/
def numStND : NumSt → Prop
  | .pend sep => sep.isDigit = false
  | _ => True

/-- After `re.sub(NUM, " ", ·)` no digit character remains: every digit
run is consumed by the `\d+` branch. -/
theorem noDigit_rmNumGo :
    ∀ (s : List Char) (st : NumSt), numStND st →
      (rmNumGo st s).all (fun c => !c.isDigit) = true := by
  intro s
  induction s with
  | nil =>
    intro st hst
    cases st with
    | pend sep => simpa [rmNumGo] using hst
    | norm => rfl
    | dig => rfl
    | fracd => rfl
  | cons c cs ih =>
    intro st hst
    have hdot : ∀ d : Char, (d = '.' || d = '/') = true → d.isDigit = false := by
      intro d hd
      rcases Bool.or_eq_true_iff.mp hd with h | h
      · rw [of_decide_eq_true h]; decide
      · rw [of_decide_eq_true h]; decide
    cases st with
    | norm =>
      simp only [rmNumGo]
      by_cases h1 : c.isDigit = true
      · simp only [if_pos h1, List.all_cons, Bool.and_eq_true]
        exact ⟨by decide, ih .dig trivial⟩
      · rw [if_neg h1]
        by_cases h2 : isFracChar c = true
        · simp only [if_pos h2, List.all_cons, Bool.and_eq_true]
          exact ⟨by decide, ih .norm trivial⟩
        · simp only [if_neg h2, List.all_cons, Bool.and_eq_true]
          refine ⟨?_, ih .norm trivial⟩
          simp only [Bool.not_eq_true] at h1
          simp [h1]
    | dig =>
      simp only [rmNumGo]
      by_cases h1 : c.isDigit = true
      · rw [if_pos h1]
        exact ih .dig trivial
      · rw [if_neg h1]
        by_cases h2 : (c = '.' || c = '/') = true
        · rw [if_pos h2]
          exact ih (.pend c) (hdot c h2)
        · rw [if_neg h2]
          by_cases h3 : isFracChar c = true
          · simp only [if_pos h3, List.all_cons, Bool.and_eq_true]
            exact ⟨by decide, ih .norm trivial⟩
          · simp only [if_neg h3, List.all_cons, Bool.and_eq_true]
            refine ⟨?_, ih .norm trivial⟩
            simp only [Bool.not_eq_true] at h1
            simp [h1]
    | pend sep =>
      simp only [rmNumGo]
      by_cases h1 : c.isDigit = true
      · rw [if_pos h1]
        exact ih .fracd trivial
      · rw [if_neg h1]
        by_cases h2 : isFracChar c = true
        · simp only [if_pos h2, List.all_cons, Bool.and_eq_true]
          refine ⟨by simpa using hst, by decide, ih .norm trivial⟩
        · simp only [if_neg h2, List.all_cons, Bool.and_eq_true]
          refine ⟨by simpa using hst, ?_, ih .norm trivial⟩
          simp only [Bool.not_eq_true] at h1
          simp [h1]
    | fracd =>
      simp only [rmNumGo]
      by_cases h1 : c.isDigit = true
      · rw [if_pos h1]
        exact ih .fracd trivial
      · rw [if_neg h1]
        by_cases h2 : isFracChar c = true
        · simp only [if_pos h2, List.all_cons, Bool.and_eq_true]
          exact ⟨by decide, ih .norm trivial⟩
        · simp only [if_neg h2, List.all_cons, Bool.and_eq_true]
          refine ⟨?_, ih .norm trivial⟩
          simp only [Bool.not_eq_true] at h1
          simp [h1]

/-- `rmPunct` emits only input characters or spaces. -/
theorem all_rmPunct (p : Char → Bool) (hsp : p ' ' = true) :
    ∀ s : List Char, s.all p = true → (rmPunct s).all p = true := by
  intro s
  induction s with
  | nil => intro _; rfl
  | cons c cs ih =>
    intro hs
    simp only [List.all_cons, Bool.and_eq_true] at hs
    obtain ⟨hc, hcs⟩ := hs
    simp only [rmPunct, List.map_cons, List.all_cons, Bool.and_eq_true]
    constructor
    · by_cases h : isPunctNoHyphen c = true
      · simp [h, hsp]
      · simp only [Bool.not_eq_true] at h
        simp [h, hc]
    · exact ih hcs

/-- `collapseGo` emits only input characters or spaces. -/
theorem all_collapseGo (p : Char → Bool) (hsp : p ' ' = true) :
    ∀ (s : List Char) (flag : Bool), s.all p = true →
      (collapseGo flag s).all p = true := by
  intro s
  induction s with
  | nil => intro flag _; rfl
  | cons c cs ih =>
    intro flag hs
    simp only [List.all_cons, Bool.and_eq_true] at hs
    obtain ⟨hc, hcs⟩ := hs
    simp only [collapseGo]
    by_cases h1 : isPySpace c = true
    · rw [if_pos h1]
      by_cases h2 : flag = true
      · rw [if_pos h2]
        exact ih true hcs
      · rw [if_neg h2]
        simp only [List.all_cons, Bool.and_eq_true]
        exact ⟨hsp, ih true hcs⟩
    · rw [if_neg h1]
      simp only [List.all_cons, Bool.and_eq_true]
      exact ⟨hc, ih false hcs⟩

/-- `rstripSp` returns a subset of its input's characters. -/
theorem all_rstripSp (p : Char → Bool) :
    ∀ s : List Char, s.all p = true → (rstripSp s).all p = true := by
  intro s
  induction s with
  | nil => intro _; rfl
  | cons c cs ih =>
    intro hs
    simp only [List.all_cons, Bool.and_eq_true] at hs
    obtain ⟨hc, hcs⟩ := hs
    simp only [rstripSp]
    by_cases h : ((rstripSp cs).isEmpty && isPySpace c) = true
    · rw [if_pos h]; rfl
    · rw [if_neg h]
      simp only [List.all_cons, Bool.and_eq_true]
      exact ⟨hc, ih hcs⟩

/-- `dropWhile` returns a subset of its input's characters. -/
theorem all_dropWhile (p q : Char → Bool) :
    ∀ s : List Char, s.all p = true → (s.dropWhile q).all p = true := by
  intro s
  induction s with
  | nil => intro _; rfl
  | cons c cs ih =>
    intro hs
    simp only [List.all_cons, Bool.and_eq_true] at hs
    obtain ⟨hc, hcs⟩ := hs
    rw [List.dropWhile_cons]
    by_cases h : q c = true
    · rw [if_pos h]
      exact ih hcs
    · rw [if_neg h]
      simp only [List.all_cons, Bool.and_eq_true]
      exact ⟨hc, hcs⟩

/-- `collapseStrip` preserves an all-characters invariant that holds of
the space. -/
theorem all_collapseStrip (p : Char → Bool) (hsp : p ' ' = true)
    (s : List Char) (hs : s.all p = true) :
    (collapseStrip s).all p = true :=
  all_rstripSp p _ (all_dropWhile p isPySpace _ (all_collapseGo p hsp s false hs))

/-- No digit character survives `_fast_scrub`. -/
theorem noDigit_fast_scrubL (s : List Char) :
    (fast_scrubL s).all (fun c => !c.isDigit) = true := by
  unfold fast_scrubL
  refine all_collapseStrip _ (by decide) _ ?_
  refine all_subWordsGo _ (by decide) _ _ [] rfl ?_
  refine all_rmPunct _ (by decide) _ ?_
  exact noDigit_rmNumGo _ .norm trivial

/-- C6: `normalize(x)` contains no digit character — for EVERY input
string, in particular for those whose quantities use only the standard
forms (integers, decimals, `a/b` fractions, vulgar-fraction glyphs): the
`\d+` branch of `NUM` consumes every digit run, including the digits NFKD
unfolds out of vulgar-fraction glyphs, and no later stage reintroduces a
digit. -/
theorem C6_no_digits_survive (s : String) :
    (fast_scrub s).data.all (fun c => !c.isDigit) = true :=
  noDigit_fast_scrubL s.data

/-! ## Word-run lemmas (C5) -/

/-- Python whitespace is never a `\w` character. -/
theorem pySpace_not_word (c : Char) (h : isPySpace c = true) :
    isWordChar c = false := by
  cases hw : isWordChar c
  · rfl
  · exfalso
    simp only [isWordChar, Bool.or_eq_true, Bool.and_eq_true,
      decide_eq_true_eq] at hw
    simp only [isPySpace, Bool.or_eq_true, Bool.and_eq_true,
      decide_eq_true_eq] at h
    omega

/-- `flushBuf` keeps a buffer that is not a vocabulary word. -/
theorem flushBuf_of_notmem (v : List (List Char)) (buf : List Char)
    (h : (!buf.isEmpty && memWord buf v) = false) : flushBuf v buf = buf := by
  by_cases hbe : buf.isEmpty = true
  · have hb : buf = [] := List.isEmpty_iff.mp hbe
    subst hb
    rfl
  · simp only [flushBuf]
    rw [if_neg hbe]
    have hm : memWord buf v = false := by
      cases hm : memWord buf v
      · rfl
      · exfalso
        rw [hm, Bool.and_true, Bool.not_eq_false'] at h
        exact hbe h
    rw [if_neg (by simp [hm])]

/-- If no word run of the text (continuing `buf`) is in the vocabulary,
whole-word removal is the identity. -/
theorem subWordsGo_id (v : List (List Char)) :
    ∀ (s buf : List Char), hasVocabGo v buf s = false →
      subWordsGo v buf s = buf ++ s := by
  intro s
  induction s with
  | nil =>
    intro buf h
    simp only [hasVocabGo] at h
    simp only [subWordsGo]
    rw [flushBuf_of_notmem v buf h]
    simp
  | cons c cs ih =>
    intro buf h
    simp only [hasVocabGo] at h
    simp only [subWordsGo]
    by_cases hw : isWordChar c = true
    · rw [if_pos hw]
      rw [if_pos hw] at h
      rw [ih (buf ++ [c]) h, List.append_assoc]
      rfl
    · rw [if_neg hw]
      rw [if_neg hw] at h
      obtain ⟨h1, h2⟩ := Bool.or_eq_false_iff.mp h
      rw [flushBuf_of_notmem v buf h1, ih [] h2]
      rfl

/-- Walking a vocabulary check over an all-word-character block simply
extends the open buffer. -/
theorem hasVocabGo_append_words (v : List (List Char)) :
    ∀ (buf b t : List Char), buf.all isWordChar = true →
      hasVocabGo v b (buf ++ t) = hasVocabGo v (b ++ buf) t := by
  intro buf
  induction buf with
  | nil =>
    intro b t _
    simp
  | cons d ds ih =>
    intro b t hall
    simp only [List.all_cons, Bool.and_eq_true] at hall
    obtain ⟨hd, hds⟩ := hall
    rw [List.cons_append]
    show hasVocabGo v b (d :: (ds ++ t)) = _
    simp only [hasVocabGo]
    rw [if_pos hd]
    show hasVocabGo v (b ++ [d]) (ds ++ t) = _
    rw [ih (b ++ [d]) t hds, List.append_assoc]
    rfl

/-- The output of whole-word removal contains no vocabulary word run. -/
theorem hasVocab_subWordsGo (v : List (List Char)) :
    ∀ (s buf : List Char), buf.all isWordChar = true →
      hasVocabWord v (subWordsGo v buf s) = false := by
  intro s
  induction s with
  | nil =>
    intro buf hb
    simp only [subWordsGo, flushBuf]
    by_cases hbe : buf.isEmpty = true
    · rw [if_pos hbe]
      rfl
    · rw [if_neg hbe]
      by_cases hm : memWord buf v = true
      · rw [if_pos hm]
        rfl
      · rw [if_neg hm]
        show hasVocabGo v [] buf = false
        have hw := hasVocabGo_append_words v buf [] [] hb
        rw [List.append_nil, List.nil_append] at hw
        rw [hw]
        simp only [hasVocabGo]
        cases h2 : memWord buf v
        · simp
        · exact absurd h2 hm
  | cons c cs ih =>
    intro buf hb
    simp only [subWordsGo]
    by_cases hw : isWordChar c = true
    · rw [if_pos hw]
      exact ih (buf ++ [c]) (by simp [List.all_append, hb, hw])
    · rw [if_neg hw]
      have htail : hasVocabGo v [] (c :: subWordsGo v [] cs) = false := by
        show hasVocabGo v [] (c :: subWordsGo v [] cs) = false
        simp only [hasVocabGo]
        rw [if_neg hw]
        simp only [List.isEmpty_nil, Bool.not_true, Bool.false_and, Bool.false_or]
        exact ih [] rfl
      simp only [flushBuf]
      by_cases hbe : buf.isEmpty = true
      · rw [if_pos hbe]
        exact htail
      · by_cases hm : memWord buf v = true
        · rw [if_neg hbe, if_pos hm]
          show hasVocabGo v [] (' ' :: c :: subWordsGo v [] cs) = false
          simp only [hasVocabGo]
          rw [if_neg (by decide : ¬(isWordChar ' ' = true))]
          simp only [List.isEmpty_nil, Bool.not_true, Bool.false_and, Bool.false_or]
          exact htail
        · rw [if_neg hbe, if_neg hm]
          show hasVocabGo v [] (buf ++ c :: subWordsGo v [] cs) = false
          rw [hasVocabGo_append_words v buf [] _ hb, List.nil_append]
          show hasVocabGo v buf (c :: subWordsGo v [] cs) = false
          simp only [hasVocabGo]
          rw [if_neg hw]
          have hm0 : memWord buf v = false := by
            cases h2 : memWord buf v
            · rfl
            · exact absurd h2 hm
          simp only [hm0, Bool.and_false, Bool.false_or]
          exact ih [] rfl

/-- Whitespace collapsing preserves the word runs of the text (stated as
preservation of the vocabulary-run check). -/
theorem hasVocabGo_collapseGo (v : List (List Char)) :
    ∀ (s : List Char) (flag : Bool) (b : List Char), (flag = true → b = []) →
      hasVocabGo v b (collapseGo flag s) = hasVocabGo v b s := by
  intro s
  induction s with
  | nil => intro flag b _; rfl
  | cons c cs ih =>
    intro flag b hfb
    simp only [collapseGo]
    by_cases hsp : isPySpace c = true
    · rw [if_pos hsp]
      have hwc : isWordChar c = false := pySpace_not_word c hsp
      by_cases hf : flag = true
      · rw [if_pos hf]
        have hb : b = [] := hfb hf
        subst hb
        rw [ih true [] (fun _ => rfl)]
        show _ = hasVocabGo v [] (c :: cs)
        simp only [hasVocabGo]
        rw [if_neg (by simp [hwc])]
        simp
      · rw [if_neg hf]
        show hasVocabGo v b (' ' :: collapseGo true cs) = hasVocabGo v b (c :: cs)
        simp only [hasVocabGo]
        rw [if_neg (by decide : ¬(isWordChar ' ' = true)), if_neg (by simp [hwc])]
        rw [ih true [] (fun _ => rfl)]
    · rw [if_neg hsp]
      show hasVocabGo v b (c :: collapseGo false cs) = hasVocabGo v b (c :: cs)
      simp only [hasVocabGo]
      by_cases hwc : isWordChar c = true
      · rw [if_pos hwc, if_pos hwc]
        exact ih false (b ++ [c]) (fun h => nomatch h)
      · rw [if_neg hwc, if_neg hwc, ih false [] (fun h => nomatch h)]

/-- Dropping leading whitespace preserves the vocabulary-run check. -/
theorem hasVocabGo_dropWhile (v : List (List Char)) :
    ∀ s : List Char,
      hasVocabGo v [] (s.dropWhile isPySpace) = hasVocabGo v [] s := by
  intro s
  induction s with
  | nil => rfl
  | cons c cs ih =>
    rw [List.dropWhile_cons]
    by_cases hsp : isPySpace c = true
    · rw [if_pos hsp]
      have hwc : isWordChar c = false := pySpace_not_word c hsp
      show _ = hasVocabGo v [] (c :: cs)
      simp only [hasVocabGo]
      rw [if_neg (by simp [hwc])]
      simpa using ih
    · rw [if_neg hsp]

/-- Removing trailing whitespace preserves the vocabulary-run check. -/
theorem hasVocabGo_rstripSp (v : List (List Char)) :
    ∀ (s b : List Char), hasVocabGo v b (rstripSp s) = hasVocabGo v b s := by
  intro s
  induction s with
  | nil => intro b; rfl
  | cons c cs ih =>
    intro b
    simp only [rstripSp]
    by_cases hbr : ((rstripSp cs).isEmpty && isPySpace c) = true
    · rw [if_pos hbr]
      obtain ⟨hre, hcsp⟩ := Bool.and_eq_true_iff.mp hbr
      have hr : rstripSp cs = [] := List.isEmpty_iff.mp hre
      have hwc : isWordChar c = false := pySpace_not_word c hcsp
      have h0 : hasVocabGo v [] cs = false := by
        have h1 := ih []
        rw [hr] at h1
        simpa [hasVocabGo] using h1.symm
      show hasVocabGo v b [] = hasVocabGo v b (c :: cs)
      simp only [hasVocabGo]
      rw [if_neg (by simp [hwc]), h0]
      simp
    · rw [if_neg hbr]
      show hasVocabGo v b (c :: rstripSp cs) = hasVocabGo v b (c :: cs)
      simp only [hasVocabGo]
      by_cases hwc : isWordChar c = true
      · rw [if_pos hwc, if_pos hwc]
        exact ih (b ++ [c])
      · rw [if_neg hwc, if_neg hwc, ih []]

/-- `collapseStrip` preserves the vocabulary-run check. -/
theorem hasVocabWord_collapseStrip (v : List (List Char)) (s : List Char) :
    hasVocabWord v (collapseStrip s) = hasVocabWord v s := by
  show hasVocabGo v [] (rstripSp ((collapseGo false s).dropWhile isPySpace)) = _
  rw [hasVocabGo_rstripSp, hasVocabGo_dropWhile,
      hasVocabGo_collapseGo v s false [] (fun h => nomatch h)]
  rfl

/-! ## Whitespace tidiness (C5) -/

/-- Every whitespace character is a plain space, and no two are adjacent
(`prevSp` records whether the previous character was a space). -/
def wsTidyGo (prevSp : Bool) : List Char → Bool
  | [] => true
  | c :: cs =>
    if isPySpace c then decide (c = ' ') && !prevSp && wsTidyGo true cs
    else wsTidyGo false cs

/-- The output of whitespace collapsing is tidy. -/
theorem wsTidy_collapseGo :
    ∀ (s : List Char) (flag : Bool), wsTidyGo flag (collapseGo flag s) = true := by
  intro s
  induction s with
  | nil => intro flag; rfl
  | cons c cs ih =>
    intro flag
    simp only [collapseGo]
    by_cases hsp : isPySpace c = true
    · rw [if_pos hsp]
      by_cases hf : flag = true
      · rw [if_pos hf, hf]
        exact ih true
      · rw [if_neg hf]
        have hf0 : flag = false := by
          cases flag
          · rfl
          · exact absurd rfl hf
        rw [hf0]
        show wsTidyGo false (' ' :: collapseGo true cs) = true
        simp only [wsTidyGo]
        rw [if_pos (by decide : isPySpace ' ' = true)]
        simp [ih true]
    · rw [if_neg hsp]
      show wsTidyGo flag (c :: collapseGo false cs) = true
      simp only [wsTidyGo]
      rw [if_neg hsp]
      exact ih false

/-- Tidiness under the strict flag implies tidiness under the lax flag. -/
theorem wsTidy_weaken : ∀ s : List Char,
    wsTidyGo true s = true → wsTidyGo false s = true := by
  intro s h
  cases s with
  | nil => rfl
  | cons c cs =>
    simp only [wsTidyGo] at *
    by_cases hsp : isPySpace c = true
    · rw [if_pos hsp] at *
      simp at h
    · rw [if_neg hsp] at *
      exact h

/-- Dropping leading whitespace preserves tidiness. -/
theorem wsTidy_dropWhile : ∀ s : List Char, wsTidyGo false s = true →
    wsTidyGo false (s.dropWhile isPySpace) = true := by
  intro s
  induction s with
  | nil => intro h; exact h
  | cons c cs ih =>
    intro h
    rw [List.dropWhile_cons]
    by_cases hsp : isPySpace c = true
    · rw [if_pos hsp]
      simp only [wsTidyGo, if_pos hsp] at h
      obtain ⟨_, h2⟩ := Bool.and_eq_true_iff.mp h
      exact ih (wsTidy_weaken cs h2)
    · rw [if_neg hsp]
      exact h

/-- Removing trailing whitespace preserves tidiness. -/
theorem wsTidy_rstripSp : ∀ (s : List Char) (flag : Bool),
    wsTidyGo flag s = true → wsTidyGo flag (rstripSp s) = true := by
  intro s
  induction s with
  | nil => intro flag h; exact h
  | cons c cs ih =>
    intro flag h
    simp only [rstripSp]
    by_cases hbr : ((rstripSp cs).isEmpty && isPySpace c) = true
    · rw [if_pos hbr]; rfl
    · rw [if_neg hbr]
      simp only [wsTidyGo] at *
      by_cases hsp : isPySpace c = true
      · rw [if_pos hsp] at *
        obtain ⟨h1, h2⟩ := Bool.and_eq_true_iff.mp h
        rw [ih true h2]
        simp [h1]
      · rw [if_neg hsp] at *
        exact ih false h

/-- The last character is not whitespace. -/
def endNS : List Char → Bool
  | [] => true
  | c :: cs => if cs.isEmpty then !isPySpace c else endNS cs

/-- `rstripSp` leaves no trailing whitespace. -/
theorem endNS_rstripSp : ∀ s : List Char, endNS (rstripSp s) = true := by
  intro s
  induction s with
  | nil => rfl
  | cons c cs ih =>
    simp only [rstripSp]
    by_cases hbr : ((rstripSp cs).isEmpty && isPySpace c) = true
    · rw [if_pos hbr]; rfl
    · rw [if_neg hbr]
      cases hr : rstripSp cs with
      | nil =>
        have hcp : isPySpace c = false := by
          cases hcp : isPySpace c
          · rfl
          · exfalso
            apply hbr
            rw [hr, hcp]
            rfl
        simp [endNS, hcp]
      | cons d ds =>
        show (if (d :: ds).isEmpty = true then !isPySpace c
              else endNS (d :: ds)) = true
        rw [if_neg (by simp), ← hr]
        exact ih

/-- Collapsing is the identity on tidy text. -/
theorem collapseGo_of_tidy : ∀ (s : List Char) (flag : Bool),
    wsTidyGo flag s = true → collapseGo flag s = s := by
  intro s
  induction s with
  | nil => intro flag _; rfl
  | cons c cs ih =>
    intro flag h
    simp only [wsTidyGo] at h
    simp only [collapseGo]
    by_cases hsp : isPySpace c = true
    · rw [if_pos hsp] at *
      obtain ⟨h1, h2⟩ := Bool.and_eq_true_iff.mp h
      obtain ⟨hc, hflag⟩ := Bool.and_eq_true_iff.mp h1
      have hf : flag = false := by
        cases flag
        · rfl
        · exact nomatch hflag
      subst hf
      rw [if_neg (by decide : ¬(false = true))]
      have hc2 : c = ' ' := of_decide_eq_true hc
      rw [hc2, ih true h2]
    · rw [if_neg hsp] at *
      rw [ih false h]

/-- `rstripSp` is the identity when the last character is not
whitespace. -/
theorem rstripSp_of_endNS : ∀ s : List Char,
    endNS s = true → rstripSp s = s := by
  intro s
  induction s with
  | nil => intro _; rfl
  | cons c cs ih =>
    intro h
    simp only [rstripSp]
    cases cs with
    | nil =>
      simp only [endNS, List.isEmpty_nil, if_true] at h
      have hc : isPySpace c = false := by
        cases hcp : isPySpace c
        · rfl
        · rw [hcp] at h
          exact nomatch h
      rw [if_neg]
      · rfl
      · simp [rstripSp, hc]
    | cons d ds =>
      have h2 : endNS (d :: ds) = true := by
        simpa [endNS] using h
      have hr := ih h2
      rw [hr, if_neg]
      simp

/-! ## ASCII-fold lemmas (C5) -/

/-- An ASCII character outside the uppercase range: such characters are
fixed points of step 2 of `_fast_scrub`. -/
def asciiNU (c : Char) : Bool :=
  decide (c.toNat ≤ 127 ∧ ¬(65 ≤ c.toNat ∧ c.toNat ≤ 90))

/-- `Char.ofNat` of a small code point has that code point. -/
theorem toNat_charOfNat (n : Nat) (h : n < 55296) :
    (Char.ofNat n).toNat = n := by
  rw [Char.ofNat, dif_pos (Or.inl h : Nat.isValidChar n)]
  rfl

/-- `charFold` fixes ASCII non-uppercase characters. -/
theorem charFold_eq_self (c : Char) (hc : asciiNU c = true) :
    charFold c = [c] := by
  obtain ⟨h1, h2⟩ := of_decide_eq_true hc
  simp only [charFold]
  rw [if_pos h1]
  congr 1
  simp only [Char.toLower]
  rw [if_neg h2]

/-- Every character emitted by `charFold` is ASCII non-uppercase. -/
theorem charFold_all (c : Char) : (charFold c).all asciiNU = true := by
  by_cases h : c.toNat ≤ 127
  · simp only [charFold, if_pos h]
    by_cases hu : 65 ≤ c.toNat ∧ c.toNat ≤ 90
    · have ht : (Char.toLower c).toNat = c.toNat + 32 := by
        simp only [Char.toLower]
        rw [if_pos hu, toNat_charOfNat _ (by omega)]
      simp only [List.all_cons, List.all_nil, Bool.and_true, asciiNU,
        decide_eq_true_eq, ht]
      omega
    · have ht : Char.toLower c = c := by
        simp only [Char.toLower]
        rw [if_neg hu]
      simp only [List.all_cons, List.all_nil, Bool.and_true, asciiNU,
        decide_eq_true_eq, ht]
      omega
  · simp only [charFold, if_neg h]
    repeat' split
    all_goals decide

/-- Every character of the ASCII-folded text is ASCII non-uppercase. -/
theorem asciiFold_all (s : List Char) : (asciiFold s).all asciiNU = true := by
  induction s with
  | nil => rfl
  | cons c cs ih =>
    show ((charFold c :: (cs.map charFold)).flatten).all asciiNU = true
    rw [List.flatten_cons, List.all_append]
    simp only [Bool.and_eq_true]
    exact ⟨charFold_all c, ih⟩

/-- ASCII folding is the identity on ASCII non-uppercase text. -/
theorem asciiFold_id (s : List Char) (hs : s.all asciiNU = true) :
    asciiFold s = s := by
  induction s with
  | nil => rfl
  | cons c cs ih =>
    simp only [List.all_cons, Bool.and_eq_true] at hs
    obtain ⟨hc, hcs⟩ := hs
    show ((charFold c :: (cs.map charFold)).flatten) = c :: cs
    rw [List.flatten_cons, charFold_eq_self c hc]
    show [c] ++ asciiFold cs = c :: cs
    rw [ih hcs]
    rfl

/-- An ASCII character is not a vulgar-fraction glyph. -/
theorem asciiNU_not_frac (c : Char) (h : asciiNU c = true) :
    isFracChar c = false := by
  obtain ⟨h1, _⟩ := of_decide_eq_true h
  cases hf : isFracChar c
  · rfl
  · exfalso
    simp only [isFracChar, Bool.or_eq_true, Bool.and_eq_true,
      decide_eq_true_eq] at hf
    omega

/-! ## Stage identity lemmas (C5) -/

/-- The parenthetical scrubber is the identity on text with no `(`. -/
theorem inchGo_id (s : List Char)
    (hs : s.all (fun c => !(decide (c = '('))) = true) :
    inchGo none s = s := by
  induction s with
  | nil => rfl
  | cons c cs ih =>
    simp only [List.all_cons, Bool.and_eq_true] at hs
    obtain ⟨hc, hcs⟩ := hs
    simp only [inchGo]
    rw [if_neg (by simpa using hc)]
    rw [ih hcs]

/-- Quantity removal is the identity on digit-free, fraction-free text. -/
theorem rmNumGo_id (s : List Char)
    (hs : s.all (fun c => !c.isDigit && !isFracChar c) = true) :
    rmNumGo .norm s = s := by
  induction s with
  | nil => rfl
  | cons c cs ih =>
    simp only [List.all_cons, Bool.and_eq_true] at hs
    obtain ⟨hc, hcs⟩ := hs
    obtain ⟨h1, h2⟩ := hc
    rw [Bool.not_eq_true'] at h1 h2
    simp only [rmNumGo]
    rw [if_neg (by simp [h1]), if_neg (by simp [h2]), ih hcs]

/-- Punctuation removal is the identity on punctuation-free text. -/
theorem rmPunct_id (s : List Char)
    (hs : s.all (fun c => !isPunctNoHyphen c) = true) :
    rmPunct s = s := by
  induction s with
  | nil => rfl
  | cons c cs ih =>
    simp only [List.all_cons, Bool.and_eq_true] at hs
    obtain ⟨hc, hcs⟩ := hs
    simp only [rmPunct, List.map_cons]
    rw [if_neg (by simpa using hc)]
    have ih2 := ih hcs
    simp only [rmPunct] at ih2
    rw [ih2]

/-- The output of punctuation removal has no punctuation except the
hyphen. -/
theorem rmPunct_out (s : List Char) :
    (rmPunct s).all (fun c => !isPunctNoHyphen c) = true := by
  induction s with
  | nil => rfl
  | cons c cs ih =>
    simp only [rmPunct, List.map_cons, List.all_cons, Bool.and_eq_true]
    refine ⟨?_, ih⟩
    by_cases h : isPunctNoHyphen c = true
    · rw [if_pos h]
      decide
    · rw [if_neg h]
      simp only [Bool.not_eq_true] at h
      simp [h]

/-- Pointwise implication between all-character predicates. -/
theorem all_imp (p q : Char → Bool) (h : ∀ c, p c = true → q c = true) :
    ∀ s : List Char, s.all p = true → s.all q = true := by
  intro s hs
  rw [List.all_eq_true] at *
  exact fun c hc => h c (hs c hc)

/-- Conjunction of two all-character facts. -/
theorem all_and (p q : Char → Bool) :
    ∀ s : List Char, s.all p = true → s.all q = true →
      s.all (fun c => p c && q c) = true := by
  intro s h1 h2
  rw [List.all_eq_true] at *
  intro c hc
  simp [h1 c hc, h2 c hc]

/-! ## The `_fast_scrub` fixed-point lemma (C5) -/

/-- A first-pass output whose word runs avoid the unit vocabulary is a
fixed point of `_fast_scrub`.  (The hypothesis is necessary: removing
digits, underscores or other word characters adjacent to a unit word can
expose the unit as a whole word only after `UNITS_RE` has already run,
e.g. `"8cup" ↦ "cup" ↦ ""`.) -/
theorem fast_scrubL_fixpoint (s0 : List Char)
    (H : hasVocabWord UNITS_L (fast_scrubL s0) = false) :
    fast_scrubL (fast_scrubL s0) = fast_scrubL s0 := by
  have hA : (fast_scrubL s0).all asciiNU = true :=
    all_collapseStrip _ (by decide) _
      (all_subWordsGo _ (by decide) REMOVE_L _ [] rfl
        (all_rmPunct _ (by decide) _
          (all_rmNumGo _ (by decide) _ .norm trivial
            (all_subWordsGo _ (by decide) UNITS_L _ [] rfl
              (asciiFold_all (removeInchParens s0))))))
  have hB : (fast_scrubL s0).all (fun c => !c.isDigit) = true :=
    noDigit_fast_scrubL s0
  have hC : (fast_scrubL s0).all (fun c => !isPunctNoHyphen c) = true :=
    all_collapseStrip _ (by decide) _
      (all_subWordsGo _ (by decide) REMOVE_L _ [] rfl
        (rmPunct_out (rmNum (subWords UNITS_L (asciiFold (removeInchParens s0))))))
  have hD : hasVocabWord REMOVE_L (fast_scrubL s0) = false := by
    show hasVocabWord REMOVE_L (collapseStrip (subWords REMOVE_L
      (rmPunct (rmNum (subWords UNITS_L (asciiFold (removeInchParens s0))))))) = false
    rw [hasVocabWord_collapseStrip]
    exact hasVocab_subWordsGo REMOVE_L _ [] rfl
  have hty : wsTidyGo false (fast_scrubL s0) = true :=
    wsTidy_rstripSp _ false (wsTidy_dropWhile _ (wsTidy_collapseGo _ false))
  have hhead : ∀ c cs, fast_scrubL s0 = c :: cs → isPySpace c = false :=
    rstrip_headNS _ (headNS_dropWhile _)
  have hend : endNS (fast_scrubL s0) = true := endNS_rstripSp _
  have hparen : (fast_scrubL s0).all (fun c => !(decide (c = '('))) = true := by
    refine all_imp _ _ (fun c hc => ?_) _ hC
    by_cases h : c = '('
    · subst h
      exact absurd hc (by decide)
    · simp [h]
  have hfrac : (fast_scrubL s0).all (fun c => !isFracChar c) = true := by
    refine all_imp _ _ (fun c hc => ?_) _ hA
    simp [asciiNU_not_frac c hc]
  have e1 : removeInchParens (fast_scrubL s0) = fast_scrubL s0 :=
    inchGo_id _ hparen
  have e2 : asciiFold (fast_scrubL s0) = fast_scrubL s0 :=
    asciiFold_id _ hA
  have e3 : subWords UNITS_L (fast_scrubL s0) = fast_scrubL s0 := by
    show subWordsGo UNITS_L [] (fast_scrubL s0) = fast_scrubL s0
    rw [subWordsGo_id UNITS_L _ [] H]
    exact List.nil_append _
  have e4 : rmNum (fast_scrubL s0) = fast_scrubL s0 :=
    rmNumGo_id _ (all_and _ _ _ hB hfrac)
  have e5 : rmPunct (fast_scrubL s0) = fast_scrubL s0 :=
    rmPunct_id _ hC
  have e6 : subWords REMOVE_L (fast_scrubL s0) = fast_scrubL s0 := by
    show subWordsGo REMOVE_L [] (fast_scrubL s0) = fast_scrubL s0
    rw [subWordsGo_id REMOVE_L _ [] hD]
    exact List.nil_append _
  have e7 : collapseStrip (fast_scrubL s0) = fast_scrubL s0 := by
    show rstripSp ((collapseGo false (fast_scrubL s0)).dropWhile isPySpace) =
      fast_scrubL s0
    rw [collapseGo_of_tidy _ false hty, dropWhile_of_headNS _ hhead,
        rstripSp_of_endNS _ hend]
  show collapseStrip (subWords REMOVE_L (rmPunct (rmNum (subWords UNITS_L
    (asciiFold (removeInchParens (fast_scrubL s0))))))) = fast_scrubL s0
  rw [e1, e2, e3, e4, e5, e6, e7]

/-! ## C5: idempotence of the normalizer -/

/-- C5 counterexample: `_fast_scrub` is NOT idempotent.  On "8cup" the
unit regex runs first and cannot fire (`\b` fails between `8` and `c`),
then digit removal exposes "cup", so the first scrub returns "cup" —
which a second scrub deletes. -/
theorem C5_counterexample :
    fast_scrub ("8cup") = ("cup") ∧
    fast_scrub (fast_scrub ("8cup")) = ("") ∧
    (("cup") : String) ≠ ("") := by
  refine ⟨by decide, by decide, by decide⟩

/-- C5 (amended): `_fast_scrub` is idempotent on every input whose
scrubbed output contains no unit word as a maximal `\w`-run — exactly the
failure the counterexample exhibits (a unit word exposed by the later
removal of adjacent digits, fraction glyphs or punctuation-derived word
characters such as `_`). -/
theorem C5_scrub_idempotent (s : String)
    (H : hasVocabWord UNITS_L (fast_scrub s).data = false) :
    fast_scrub (fast_scrub s) = fast_scrub s := by
  show String.mk (fast_scrubL (fast_scrub s).data) = fast_scrub s
  have h : (fast_scrub s).data = fast_scrubL s.data := rfl
  rw [h, fast_scrubL_fixpoint s.data (by rw [← h]; exact H)]
  rfl

/-- Witness for `C5_scrub_idempotent` on a typical ingredient line. -/
theorem C5_scrub_idempotent_witness :
    hasVocabWord UNITS_L (fast_scrub ("2 cups chopped walnuts")).data = false ∧
    fast_scrub (fast_scrub ("2 cups chopped walnuts")) =
      fast_scrub ("2 cups chopped walnuts") :=
  ⟨by decide, C5_scrub_idempotent ("2 cups chopped walnuts") (by decide)⟩
